import Mathlib

/-!
# Verification of `twitter_img_alt.py`

A shallow embedding in Lean 4 of the mention-polling, annotation-extraction,
text-chunking, and reply-threading code of `twitter_img_alt.py`, together with
theorems settling the specification claims about that code.

Python strings are modelled as `List Char` (Python indexes strings by code
point, so list positions match Python string indices).  JSON records (the
durable status file) are modelled as ordered association lists, matching the
insertion-ordered dicts produced by `json.load`/`json.dump`.
-/

/-- The whitespace set of Python's default `str.strip()`. -/
def pyIsSpace (c : Char) : Bool :=
  c = ' ' || c = '\t' || c = '\n' || c = '\r' || c = '\x0b' || c = '\x0c'

/-- Python `s.strip()`: remove leading and trailing whitespace. -/
def pyStrip (s : List Char) : List Char :=
  ((s.dropWhile pyIsSpace).reverse.dropWhile pyIsSpace).reverse

/-- Python `s.rfind(c)` restricted to a list (index of the rightmost
occurrence, `none` when absent).  `s.rfind(c, 0, stop)` is modelled as
`rfind c (s.take stop)`. -/
def rfind (c : Char) : List Char → Option Nat
  | [] => none
  | x :: xs =>
    match rfind c xs with
    | some j => some (j + 1)
    | none => if x = c then some 0 else none

theorem rfind_lt_length {c : Char} : ∀ {l : List Char} {j : Nat},
    rfind c l = some j → j < l.length := by
  intro l
  induction l with
  | nil => intro j h; simp [rfind] at h
  | cons x xs ih =>
    intro j h
    simp only [rfind] at h
    cases hr : rfind c xs with
    | some k =>
      rw [hr] at h
      cases h
      have := ih hr
      simp only [List.length_cons]
      omega
    | none =>
      rw [hr] at h
      by_cases hx : x = c
      · simp [hx] at h
        cases h
        simp
      · simp [hx] at h

theorem rfind_get {c : Char} : ∀ {l : List Char} {j : Nat},
    rfind c l = some j → l[j]? = some c := by
  intro l
  induction l with
  | nil => intro j h; simp [rfind] at h
  | cons x xs ih =>
    intro j h
    simp only [rfind] at h
    cases hr : rfind c xs with
    | some k =>
      rw [hr] at h
      cases h
      simpa using ih hr
    | none =>
      rw [hr] at h
      by_cases hx : x = c
      · simp [hx] at h
        cases h
        simp [hx]
      · simp [hx] at h

/-- The `while len(annot) > maxlen` loop of `annotationsToStatuses`
(src lines 192-203), as a fuel-indexed recursion.  Each loop iteration
removes at least one character when `maxlen ≥ 1`, so running it with
`fuel = annot.length` computes exactly what the Python loop computes;
the fuel-exhausted fallback is never reached in that regime. -/
def chunkLoop (maxlen : Nat) : Nat → List Char → List (List Char)
  | 0, annot => [annot]
  | fuel + 1, annot =>
    if annot.length ≤ maxlen then [annot]
    else
      match rfind '\n' (annot.take (maxlen + 1)) with
      | some j => annot.take j :: chunkLoop maxlen fuel (annot.drop (j + 1))
      | none =>
        match rfind ' ' (annot.take (maxlen + 1)) with
        | some j => annot.take j :: chunkLoop maxlen fuel (annot.drop (j + 1))
        | none => annot.take maxlen :: chunkLoop maxlen fuel (annot.drop maxlen)

/-- `'Image {0}:\n{1}'.format(idx, txt)` (src line 184). -/
def imageHeader (idx : Nat) (txt : List Char) : List Char :=
  "Image ".toList ++ (toString idx).toList ++ ":\n".toList ++ txt

/-- `annotationsToStatuses` (src lines 181-204): prefix each annotation with
an image header when there is more than one, then strip each annotation and
run the splitting loop on it, concatenating all resulting chunks. -/
def annotationsToStatuses (anns : List (List Char)) (maxlen : Nat) :
    List (List Char) :=
  let anns2 :=
    if anns.length > 1 then
      ((List.range' 1 anns.length).zip anns).map fun p => imageHeader p.1 p.2
    else anns
  (anns2.map fun a =>
    let t := pyStrip a
    chunkLoop maxlen t.length t).flatten

example : annotationsToStatuses ["hello world again".toList] 7
    = ["hello".toList, "world".toList, "again".toList] := by decide

example : annotationsToStatuses ["abcdefgh".toList] 3
    = ["abc".toList, "def".toList, "gh".toList] := by decide

theorem chunkLoop_length_le (maxlen : Nat) (hm : 1 ≤ maxlen) :
    ∀ (fuel : Nat) (annot : List Char), annot.length ≤ fuel →
      ∀ c ∈ chunkLoop maxlen fuel annot, c.length ≤ maxlen := by
  intro fuel
  induction fuel with
  | zero =>
    intro annot hf c hc
    have : annot = [] := List.length_eq_zero.mp (Nat.le_zero.mp hf)
    subst this
    simp [chunkLoop] at hc
    simp [hc]
  | succ f ih =>
    intro annot hf c hc
    simp only [chunkLoop] at hc
    by_cases hlen : annot.length ≤ maxlen
    · simp [hlen] at hc
      simp [hc, hlen]
    · simp only [if_neg hlen] at hc
      have hgt : maxlen < annot.length := Nat.lt_of_not_le hlen
      cases hnl : rfind '\n' (annot.take (maxlen + 1)) with
      | some j =>
        rw [hnl] at hc
        have hj : j < maxlen + 1 := by
          have := rfind_lt_length hnl
          simp only [List.length_take] at this
          omega
        rcases List.mem_cons.mp hc with hceq | hcrec
        · subst hceq
          simp only [List.length_take]
          omega
        · exact ih (annot.drop (j + 1)) (by simp [List.length_drop]; omega) c hcrec
      | none =>
        rw [hnl] at hc
        cases hsp : rfind ' ' (annot.take (maxlen + 1)) with
        | some j =>
          rw [hsp] at hc
          have hj : j < maxlen + 1 := by
            have := rfind_lt_length hsp
            simp only [List.length_take] at this
            omega
          rcases List.mem_cons.mp hc with hceq | hcrec
          · subst hceq
            simp only [List.length_take]
            omega
          · exact ih (annot.drop (j + 1)) (by simp [List.length_drop]; omega) c hcrec
        | none =>
          rw [hsp] at hc
          rcases List.mem_cons.mp hc with hceq | hcrec
          · subst hceq
            simp only [List.length_take]
            omega
          · exact ih (annot.drop maxlen) (by simp [List.length_drop]; omega) c hcrec

/-- Instrumented version of `chunkLoop` recording, next to each chunk, the
split character the loop consumed after it (`annot[split_idx]`, taken from
the list itself), or `[]` for a mid-word split and for the final remainder.
Identical branch structure to `chunkLoop`. -/
def chunkLoopSep (maxlen : Nat) : Nat → List Char → List (List Char × List Char)
  | 0, annot => [(annot, [])]
  | fuel + 1, annot =>
    if annot.length ≤ maxlen then [(annot, [])]
    else
      match rfind '\n' (annot.take (maxlen + 1)) with
      | some j =>
        (annot.take j, (annot.drop j).take 1)
          :: chunkLoopSep maxlen fuel (annot.drop (j + 1))
      | none =>
        match rfind ' ' (annot.take (maxlen + 1)) with
        | some j =>
          (annot.take j, (annot.drop j).take 1)
            :: chunkLoopSep maxlen fuel (annot.drop (j + 1))
        | none =>
          (annot.take maxlen, [])
            :: chunkLoopSep maxlen fuel (annot.drop maxlen)

/-- Interleave chunks with their consumed split characters. -/
def joinChunks (l : List (List Char × List Char)) : List Char :=
  l.foldr (fun p acc => p.1 ++ p.2 ++ acc) []

/-- The instrumented loop computes the same chunks as the real one. -/
theorem chunkLoopSep_fst (maxlen : Nat) : ∀ (fuel : Nat) (annot : List Char),
    (chunkLoopSep maxlen fuel annot).map Prod.fst = chunkLoop maxlen fuel annot := by
  intro fuel
  induction fuel with
  | zero => intro annot; simp [chunkLoopSep, chunkLoop]
  | succ f ih =>
    intro annot
    simp only [chunkLoopSep, chunkLoop]
    by_cases hlen : annot.length ≤ maxlen
    · simp [hlen]
    · simp only [if_neg hlen]
      cases hnl : rfind '\n' (annot.take (maxlen + 1)) with
      | some j => simp [ih]
      | none =>
        cases hsp : rfind ' ' (annot.take (maxlen + 1)) with
        | some j => simp [ih]
        | none => simp [ih]

/-- Re-joining the chunks with the consumed split characters reproduces the
input to the loop exactly. -/
theorem chunkLoopSep_join (maxlen : Nat) : ∀ (fuel : Nat) (annot : List Char),
    joinChunks (chunkLoopSep maxlen fuel annot) = annot := by
  intro fuel
  induction fuel with
  | zero => intro annot; simp [chunkLoopSep, joinChunks]
  | succ f ih =>
    intro annot
    simp only [chunkLoopSep]
    by_cases hlen : annot.length ≤ maxlen
    · simp [hlen, joinChunks]
    · simp only [if_neg hlen]
      have hsplit : ∀ j : Nat,
          annot.take j ++ ((annot.drop j).take 1 ++ annot.drop (j + 1)) = annot := by
        intro j
        have h1 : (annot.drop j).take 1 ++ (annot.drop j).drop 1 = annot.drop j :=
          List.take_append_drop 1 (annot.drop j)
        have h2 : (annot.drop j).drop 1 = annot.drop (j + 1) := by
          rw [List.drop_drop]
        rw [← h2, h1, List.take_append_drop]
      cases hnl : rfind '\n' (annot.take (maxlen + 1)) with
      | some j =>
        simp only [joinChunks, List.foldr_cons] at ih ⊢
        rw [ih, List.append_assoc, hsplit]
      | none =>
        cases hsp : rfind ' ' (annot.take (maxlen + 1)) with
        | some j =>
          simp only [joinChunks, List.foldr_cons] at ih ⊢
          rw [ih, List.append_assoc, hsplit]
        | none =>
          simp only [joinChunks, List.foldr_cons] at ih ⊢
          rw [ih, List.append_nil, List.take_append_drop]

theorem drop_take_one_of_get {l : List Char} : ∀ {j : Nat} {c : Char},
    l[j]? = some c → (l.drop j).take 1 = [c] := by
  induction l with
  | nil => intro j c h; simp at h
  | cons x xs ih =>
    intro j c h
    cases j with
    | zero =>
      simp at h
      simp [h]
    | succ j =>
      simp at h
      simpa using ih h

/-- Every consumed separator recorded by `chunkLoopSep` is empty (mid-word or
final chunk), a line break, or a space. -/
theorem chunkLoopSep_sep_shape (maxlen : Nat) : ∀ (fuel : Nat) (annot : List Char),
    ∀ p ∈ chunkLoopSep maxlen fuel annot,
      p.2 = [] ∨ p.2 = ['\n'] ∨ p.2 = [' '] := by
  intro fuel
  induction fuel with
  | zero =>
    intro annot p hp
    simp [chunkLoopSep] at hp
    simp [hp]
  | succ f ih =>
    intro annot p hp
    simp only [chunkLoopSep] at hp
    by_cases hlen : annot.length ≤ maxlen
    · simp [hlen] at hp
      simp [hp]
    · simp only [if_neg hlen] at hp
      cases hnl : rfind '\n' (annot.take (maxlen + 1)) with
      | some j =>
        rw [hnl] at hp
        rcases List.mem_cons.mp hp with hpe | hpr
        · subst hpe
          right; left
          have hj : j < maxlen + 1 := by
            have := rfind_lt_length hnl
            simp only [List.length_take] at this
            omega
          have hg : annot[j]? = some '\n' := by
            have hgt := rfind_get hnl
            rwa [List.getElem?_take_of_lt hj] at hgt
          exact drop_take_one_of_get hg
        · exact ih _ p hpr
      | none =>
        rw [hnl] at hp
        cases hsp : rfind ' ' (annot.take (maxlen + 1)) with
        | some j =>
          rw [hsp] at hp
          rcases List.mem_cons.mp hp with hpe | hpr
          · subst hpe
            right; right
            have hj : j < maxlen + 1 := by
              have := rfind_lt_length hsp
              simp only [List.length_take] at this
              omega
            have hg : annot[j]? = some ' ' := by
              have hgt := rfind_get hsp
              rwa [List.getElem?_take_of_lt hj] at hgt
            exact drop_take_one_of_get hg
          · exact ih _ p hpr
        | none =>
          rw [hsp] at hp
          rcases List.mem_cons.mp hp with hpe | hpr
          · subst hpe
            left; rfl
          · exact ih _ p hpr

/-- `pyStrip` only removes whitespace from the two ends of the string. -/
theorem pyStrip_decomp (s : List Char) :
    ∃ pre post, s = pre ++ pyStrip s ++ post
      ∧ pre.all pyIsSpace = true ∧ post.all pyIsSpace = true := by
  refine ⟨s.takeWhile pyIsSpace,
    ((s.dropWhile pyIsSpace).reverse.takeWhile pyIsSpace).reverse, ?_, ?_, ?_⟩
  · conv_lhs => rw [← List.takeWhile_append_dropWhile pyIsSpace s]
    rw [List.append_assoc]
    congr 1
    conv_lhs => rw [← List.reverse_reverse (s.dropWhile pyIsSpace)]
    conv_lhs =>
      rw [← List.takeWhile_append_dropWhile pyIsSpace
        (s.dropWhile pyIsSpace).reverse]
    rw [List.reverse_append]
    rfl
  · rw [List.all_eq_true]
    intro x hx
    exact List.mem_takeWhile_imp hx
  · rw [List.all_eq_true]
    intro x hx
    rw [List.mem_reverse] at hx
    exact List.mem_takeWhile_imp hx

/-- C1: for every list of annotation strings and every maximum chunk length
`L ≥ 1`, every chunk produced by `annotationsToStatuses` has length at most
`L` characters (mid-word hard splits included). -/
theorem C1_chunk_length_le (anns : List (List Char)) (L : Nat) (hL : 1 ≤ L) :
    ∀ c ∈ annotationsToStatuses anns L, c.length ≤ L := by
  intro c hc
  simp only [annotationsToStatuses, List.mem_flatten, List.mem_map] at hc
  rcases hc with ⟨l, ⟨a, _, hla⟩, hcl⟩
  rw [← hla] at hcl
  exact chunkLoop_length_le L hL (pyStrip a).length (pyStrip a) le_rfl c hcl

theorem C1_witness :
    1 ≤ 5 ∧ ∀ c ∈ annotationsToStatuses
      ["hello world again".toList, "split-midword-here".toList] 5, c.length ≤ 5 :=
  ⟨by decide, C1_chunk_length_le _ 5 (by decide)⟩

/-- C2: for every string `S` and limit `L ≥ 1`, the instrumented chunker
produces exactly the chunks `annotationsToStatuses [S] L` produces, re-joining
those chunks with the consumed split characters reproduces `S` stripped of
leading/trailing whitespace exactly (no character lost or reordered), every
consumed split character is a line break or a space, and the stripped string
differs from `S` only by removal of boundary whitespace. -/
theorem C2_roundtrip (S : List Char) (L : Nat) (hL : 1 ≤ L) :
    (chunkLoopSep L (pyStrip S).length (pyStrip S)).map Prod.fst
        = annotationsToStatuses [S] L
    ∧ joinChunks (chunkLoopSep L (pyStrip S).length (pyStrip S)) = pyStrip S
    ∧ (∀ p ∈ chunkLoopSep L (pyStrip S).length (pyStrip S),
        p.2 = [] ∨ p.2 = ['\n'] ∨ p.2 = [' '])
    ∧ ∃ pre post, S = pre ++ pyStrip S ++ post
        ∧ pre.all pyIsSpace = true ∧ post.all pyIsSpace = true := by
  refine ⟨?_, chunkLoopSep_join L _ _, chunkLoopSep_sep_shape L _ _, pyStrip_decomp S⟩
  rw [chunkLoopSep_fst]
  simp [annotationsToStatuses]

theorem C2_witness :
    1 ≤ 4 ∧
      ((chunkLoopSep 4 (pyStrip "  one two\nthree  ".toList).length
          (pyStrip "  one two\nthree  ".toList)).map Prod.fst
        = annotationsToStatuses ["  one two\nthree  ".toList] 4
      ∧ joinChunks (chunkLoopSep 4 (pyStrip "  one two\nthree  ".toList).length
          (pyStrip "  one two\nthree  ".toList)) = pyStrip "  one two\nthree  ".toList
      ∧ (∀ p ∈ chunkLoopSep 4 (pyStrip "  one two\nthree  ".toList).length
          (pyStrip "  one two\nthree  ".toList),
          p.2 = [] ∨ p.2 = ['\n'] ∨ p.2 = [' '])
      ∧ ∃ pre post, "  one two\nthree  ".toList
            = pre ++ pyStrip "  one two\nthree  ".toList ++ post
          ∧ pre.all pyIsSpace = true ∧ post.all pyIsSpace = true) :=
  ⟨by decide, C2_roundtrip "  one two\nthree  ".toList 4 (by decide)⟩

/-- JSON values as stored in the durable status file.  The fields of the
record other than `since_id` are opaque; these constructors cover the values
the claims need. -/
inductive JVal where
  | null : JVal
  | bool : Bool → JVal
  | int : Int → JVal
  | str : List Char → JVal
deriving DecidableEq

/-- A JSON object, as the insertion-ordered key/value list produced by
`json.load` / consumed by `json.dump`. -/
abbrev JObj := List (String × JVal)

/-- Python `d[k]` lookup returning `none` on `KeyError`. -/
def getKey : JObj → String → Option JVal
  | [], _ => none
  | p :: ps, k => if p.1 = k then some p.2 else getKey ps k

/-- Python `d[k] = v`: replace the value at `k`, or append the key. -/
def setKey : JObj → String → JVal → JObj
  | [], k, v => [(k, v)]
  | p :: ps, k, v => if p.1 = k then (k, v) :: ps else p :: setKey ps k v

theorem getKey_setKey_same (o : JObj) (k : String) (v : JVal) :
    getKey (setKey o k v) k = some v := by
  induction o with
  | nil => simp [setKey, getKey]
  | cons p ps ih =>
    by_cases hp : p.1 = k
    · simp [setKey, hp, getKey]
    · simp [setKey, hp, getKey, ih]

theorem getKey_setKey_ne (o : JObj) (k k2 : String) (v : JVal) (h : k2 ≠ k) :
    getKey (setKey o k v) k2 = getKey o k2 := by
  have hne : k ≠ k2 := fun he => h he.symm
  induction o with
  | nil => simp [setKey, getKey, hne]
  | cons p ps ih =>
    by_cases hp : p.1 = k
    · have hp2 : ¬ p.1 = k2 := by rw [hp]; exact hne
      simp [setKey, hp, getKey, hne, hp2]
    · simp [setKey, hp, getKey, ih]

/-- The mutable state of a `Mentions` instance: `self.since_id` (Python
`None` modelled as `JVal.null`), `self.status` (the in-memory copy of the
file record), and whether `self.status_file` is not `None`. -/
structure MentionsState where
  since_id : JVal
  status : JObj
  hasFile : Bool
deriving DecidableEq

/-- `Mentions.__init__` (src lines 62-80).  `fileContent` is the current
content of the status file (`none` when no such file exists, in which case
`open` raises `FileNotFoundError`, modelled as `Except.error`).  The file is
read only when no explicit `since_id` was supplied and a file path is
configured; a record without a `since_id` key leaves the cursor unset
(`KeyError` is caught and ignored). -/
def mentionsInit (sinceIdArg : JVal) (hasFile : Bool) (fileContent : Option JObj) :
    Except Unit MentionsState :=
  if sinceIdArg = JVal.null ∧ hasFile = true then
    match fileContent with
    | none => Except.error ()
    | some obj =>
      Except.ok ⟨(getKey obj "since_id").getD JVal.null, obj, hasFile⟩
  else
    Except.ok ⟨sinceIdArg, [], hasFile⟩

/-- `Mentions._maybeUpdateStatusFile` (src lines 82-86): store the cursor in
the in-memory record, then overwrite the status file with that record when a
file path is configured.  Returns the new state and the new file content. -/
def maybeUpdateStatusFile (s : MentionsState) (file : Option JObj) :
    MentionsState × Option JObj :=
  let st := setKey s.status "since_id" s.since_id
  (⟨s.since_id, st, s.hasFile⟩, if s.hasFile then some st else file)

/-- A mention event: the poller reads only its `id`; the rest of the record
is opaque payload. -/
structure Mention where
  id : Int
  text : List Char
deriving DecidableEq

/-- Insert a mention into a list sorted ascending by `id`, before the first
strictly larger element (a stable insertion). -/
def insertMention (m : Mention) : List Mention → List Mention
  | [] => [m]
  | x :: xs => if x.id < m.id then x :: insertMention m xs else m :: x :: xs

/-- `sorted(mentions, key=lambda x: x.id)` (src line 109): a stable sort
ascending by `id`. -/
def sortMentions (l : List Mention) : List Mention :=
  l.foldr insertMention []

/-- One record per `yield` of `Mentions.stream`: the emitted mention, the
value of `self.since_id` at the moment of the `yield`, and the status-file
content at that moment. -/
structure Emit where
  m : Mention
  cursorAtEmit : JVal
  fileAtEmit : Option JObj
deriving DecidableEq

/-- The `for m in mentions:` body of `Mentions.stream` (src lines 112-115):
for each mention in order, set `self.since_id = m.id`, persist via
`_maybeUpdateStatusFile`, then yield the mention.  Returns the final state,
the final file content, and the emission trace. -/
def drainBatch : MentionsState → Option JObj → List Mention →
    MentionsState × Option JObj × List Emit
  | s, file, [] => (s, file, [])
  | s, file, m :: rest =>
    let s1 : MentionsState := ⟨JVal.int m.id, s.status, s.hasFile⟩
    let r2 := maybeUpdateStatusFile s1 file
    let r3 := drainBatch r2.1 r2.2 rest
    (r3.1, r3.2.1, ⟨m, r2.1.since_id, r2.2⟩ :: r3.2.2)

/-- One non-empty poll cycle of `Mentions.stream` (src lines 108-115): sort
the fetched batch ascending by id, then drain it. -/
def streamBatch (s : MentionsState) (file : Option JObj) (batch : List Mention) :
    MentionsState × Option JObj × List Emit :=
  drainBatch s file (sortMentions batch)

/-- The attribute names defined on `Mentions` instances (src lines 58-115):
the fields set in `__init__` and the methods of the class. -/
def mentionsAttrNames : List String :=
  ["twitterApi", "since_id", "status_file", "status",
   "_maybeUpdateStatusFile", "getNewMentions", "rawGetNewMentions", "stream"]

inductive PyError where
  | attributeError : PyError
  | typeError : PyError
deriving DecidableEq

/-- `Mentions.getNewMentions` (src lines 88-94).  Its first statement resolves
`self.rawGetMentions`, a name no `Mentions` attribute bears (the defined
method is `rawGetNewMentions`), so attribute lookup raises `AttributeError`.
Were the lookup to succeed with the fetched list (`fetched`), the update
`max(mentions, lambda m: m.id)` would compare a list with a function and
raise `TypeError` on any non-empty batch.  An `Except.error` result models
the exception propagating with no state or file update. -/
def getNewMentions (fetched : List Mention) (s : MentionsState) (file : Option JObj) :
    Except PyError (MentionsState × Option JObj) :=
  if "rawGetMentions" ∈ mentionsAttrNames then
    if fetched.length > 0 then Except.error PyError.typeError
    else Except.ok (s, file)
  else Except.error PyError.attributeError

theorem insertMention_perm (m : Mention) (l : List Mention) :
    (insertMention m l).Perm (m :: l) := by
  induction l with
  | nil => simp [insertMention]
  | cons x xs ih =>
    by_cases hx : x.id < m.id
    · simp only [insertMention, if_pos hx]
      exact ((ih.cons x).trans (List.Perm.swap m x xs))
    · simp [insertMention, hx]

theorem sortMentions_perm (l : List Mention) : (sortMentions l).Perm l := by
  induction l with
  | nil => simp [sortMentions]
  | cons x xs ih =>
    have : sortMentions (x :: xs) = insertMention x (sortMentions xs) := rfl
    rw [this]
    exact (insertMention_perm x (sortMentions xs)).trans (ih.cons x)

theorem mem_insertMention {y m : Mention} {l : List Mention} :
    y ∈ insertMention m l ↔ y = m ∨ y ∈ l := by
  rw [(insertMention_perm m l).mem_iff]
  simp

theorem insertMention_sorted (m : Mention) (l : List Mention)
    (h : l.Pairwise (fun a b => a.id ≤ b.id)) :
    (insertMention m l).Pairwise (fun a b => a.id ≤ b.id) := by
  induction l with
  | nil => simp [insertMention]
  | cons x xs ih =>
    rcases List.pairwise_cons.mp h with ⟨hx, hxs⟩
    by_cases hlt : x.id < m.id
    · simp only [insertMention, if_pos hlt]
      refine List.pairwise_cons.mpr ⟨?_, ih hxs⟩
      intro y hy
      rcases mem_insertMention.mp hy with rfl | hy2
      · exact Int.le_of_lt hlt
      · exact hx y hy2
    · simp only [insertMention, if_neg hlt]
      refine List.pairwise_cons.mpr ⟨?_, h⟩
      intro y hy
      rcases List.mem_cons.mp hy with rfl | hy2
      · exact Int.not_lt.mp hlt
      · exact le_trans (Int.not_lt.mp hlt) (hx y hy2)

theorem sortMentions_sorted (l : List Mention) :
    (sortMentions l).Pairwise (fun a b => a.id ≤ b.id) := by
  induction l with
  | nil => simp [sortMentions]
  | cons x xs ih => exact insertMention_sorted x (sortMentions xs) ih

/-- The drain loop yields exactly the mentions of its input list, in order. -/
theorem drainBatch_emits : ∀ (l : List Mention) (s : MentionsState) (file : Option JObj),
    ((drainBatch s file l).2.2).map Emit.m = l := by
  intro l
  induction l with
  | nil => intro s file; simp [drainBatch]
  | cons m rest ih => intro s file; simp [drainBatch, ih]

/-- At every yield, the in-memory cursor equals the emitted mention's id. -/
theorem drainBatch_cursorAtEmit :
    ∀ (l : List Mention) (s : MentionsState) (file : Option JObj),
      ∀ e ∈ (drainBatch s file l).2.2, e.cursorAtEmit = JVal.int e.m.id := by
  intro l
  induction l with
  | nil => intro s file e he; simp [drainBatch] at he
  | cons m rest ih =>
    intro s file e he
    simp only [drainBatch] at he
    rcases List.mem_cons.mp he with rfl | he2
    · rfl
    · exact ih _ _ e he2

/-- When a status file is configured, at every yield the file holds a record
whose `since_id` equals the emitted mention's id (the persist happens before
the yield). -/
theorem drainBatch_fileAtEmit :
    ∀ (l : List Mention) (s : MentionsState) (file : Option JObj),
      s.hasFile = true →
      ∀ e ∈ (drainBatch s file l).2.2,
        ∃ obj, e.fileAtEmit = some obj
          ∧ getKey obj "since_id" = some (JVal.int e.m.id) := by
  intro l
  induction l with
  | nil => intro s file hs e he; simp [drainBatch] at he
  | cons m rest ih =>
    intro s file hs e he
    simp only [drainBatch] at he
    rcases List.mem_cons.mp he with rfl | he2
    · refine ⟨setKey s.status "since_id" (JVal.int m.id), ?_, ?_⟩
      · simp [maybeUpdateStatusFile, hs]
      · exact getKey_setKey_same _ _ _
    · exact ih (maybeUpdateStatusFile ⟨JVal.int m.id, s.status, s.hasFile⟩ file).1
        (maybeUpdateStatusFile ⟨JVal.int m.id, s.status, s.hasFile⟩ file).2
        (by simpa [maybeUpdateStatusFile] using hs) e he2

/-- After draining a non-empty list, the cursor equals the last element's id. -/
theorem drainBatch_final_cursor :
    ∀ (l : List Mention) (s : MentionsState) (file : Option JObj) (h : l ≠ []),
      (drainBatch s file l).1.since_id = JVal.int ((l.getLast h).id) := by
  intro l
  induction l with
  | nil => intro s file h; exact absurd rfl h
  | cons m rest ih =>
    intro s file h
    cases rest with
    | nil => simp [drainBatch, maybeUpdateStatusFile]
    | cons r rs =>
      have hne : r :: rs ≠ [] := by simp
      simp only [drainBatch]
      rw [List.getLast_cons hne]
      exact ih _ _ hne

/-- In a list sorted ascending by id, every element's id is at most the last
element's id. -/
theorem sorted_le_getLast :
    ∀ (l : List Mention) (h : l ≠ []),
      l.Pairwise (fun a b => a.id ≤ b.id) →
      ∀ x ∈ l, x.id ≤ (l.getLast h).id := by
  intro l
  induction l with
  | nil => intro h; exact absurd rfl h
  | cons y ys ih =>
    intro h hp x hx
    rcases List.pairwise_cons.mp hp with ⟨hy, hys⟩
    cases ys with
    | nil =>
      simp at hx
      simp [hx]
    | cons z zs =>
      have hne : z :: zs ≠ [] := by simp
      rw [List.getLast_cons hne]
      rcases List.mem_cons.mp hx with rfl | hx2
      · exact hy _ (List.getLast_mem hne)
      · exact ih hne hys x hx2

/-- C3: for every batch of mention events returned by a fetch (in any order),
`Mentions.stream` emits the events in ascending identifier order, as a
permutation of the batch; at each emission the in-memory cursor equals the
emitted event's identifier and has already been persisted to the status file
(so the cursor update and persist precede both the hand-off to the consumer
and the next event); and after the batch the cursor equals the maximum
identifier of the batch. -/
theorem C3_stream_order_and_persist (s : MentionsState) (file : Option JObj)
    (batch : List Mention) (hs : s.hasFile = true) (hne : batch ≠ []) :
    ((streamBatch s file batch).2.2.map Emit.m).Pairwise (fun a b => a.id ≤ b.id)
    ∧ ((streamBatch s file batch).2.2.map Emit.m).Perm batch
    ∧ (∀ e ∈ (streamBatch s file batch).2.2,
        e.cursorAtEmit = JVal.int e.m.id
        ∧ ∃ obj, e.fileAtEmit = some obj
            ∧ getKey obj "since_id" = some (JVal.int e.m.id))
    ∧ ∃ M : Int, (streamBatch s file batch).1.since_id = JVal.int M
        ∧ M ∈ batch.map Mention.id ∧ ∀ i ∈ batch.map Mention.id, i ≤ M := by
  have hmap : ((streamBatch s file batch).2.2).map Emit.m = sortMentions batch :=
    drainBatch_emits (sortMentions batch) s file
  have hperm := sortMentions_perm batch
  have hsorted := sortMentions_sorted batch
  have hsne : sortMentions batch ≠ [] := by
    intro hnil
    have hlen := hperm.length_eq
    rw [hnil] at hlen
    exact hne (List.length_eq_zero.mp hlen.symm)
  refine ⟨hmap ▸ hsorted, hmap ▸ hperm, ?_, ?_⟩
  · intro e he
    exact ⟨drainBatch_cursorAtEmit (sortMentions batch) s file e he,
      drainBatch_fileAtEmit (sortMentions batch) s file hs e he⟩
  · refine ⟨((sortMentions batch).getLast hsne).id, ?_, ?_, ?_⟩
    · exact drainBatch_final_cursor (sortMentions batch) s file hsne
    · exact List.mem_map_of_mem Mention.id
        (hperm.mem_iff.mp (List.getLast_mem hsne))
    · intro i hi
      rcases List.mem_map.mp hi with ⟨x, hx, rfl⟩
      exact sorted_le_getLast (sortMentions batch) hsne hsorted x
        (hperm.mem_iff.mpr hx)

theorem C3_witness :
    (((streamBatch ⟨JVal.null, [], true⟩ (some [])
        [⟨5, []⟩, ⟨1, []⟩, ⟨3, []⟩]).2.2.map Emit.m).Perm
      [⟨5, []⟩, ⟨1, []⟩, ⟨3, []⟩])
    ∧ ∃ M : Int, (streamBatch ⟨JVal.null, [], true⟩ (some [])
          [⟨5, []⟩, ⟨1, []⟩, ⟨3, []⟩]).1.since_id = JVal.int M
        ∧ M ∈ List.map Mention.id [⟨5, []⟩, ⟨1, []⟩, ⟨3, []⟩]
        ∧ ∀ i ∈ List.map Mention.id [⟨5, []⟩, ⟨1, []⟩, ⟨3, []⟩], i ≤ M :=
  ⟨(C3_stream_order_and_persist ⟨JVal.null, [], true⟩ (some [])
      [⟨5, []⟩, ⟨1, []⟩, ⟨3, []⟩] rfl (by decide)).2.1,
   (C3_stream_order_and_persist ⟨JVal.null, [], true⟩ (some [])
      [⟨5, []⟩, ⟨1, []⟩, ⟨3, []⟩] rfl (by decide)).2.2.2⟩

/-- C4 (counterexample): the claim says every emitted event's identifier is
strictly greater than the cursor value at the moment of emission.  In the
concrete run below, the stream has already set the cursor to the event's own
identifier when it yields, so the identifier 5 equals — and is not strictly
greater than — the cursor value `JVal.int 5` at emission. -/
theorem C4_counterexample :
    ∃ e ∈ (streamBatch ⟨JVal.null, [], true⟩ (some []) [⟨5, []⟩]).2.2,
      e.cursorAtEmit = JVal.int 5 ∧ e.m.id = 5 ∧ ¬ (5 : Int) < 5 := by decide

/-- C4 (amended): at the moment an event is emitted to the consumer, the
in-memory cursor equals the event's identifier (the stream assigns
`self.since_id = m.id` and persists before yielding), so the identifier is
greater than or equal to — but not strictly greater than — the cursor at
emission time. -/
theorem C4_cursor_eq_emitted_id (s : MentionsState) (file : Option JObj)
    (batch : List Mention) :
    ∀ e ∈ (streamBatch s file batch).2.2, e.cursorAtEmit = JVal.int e.m.id :=
  fun e he => drainBatch_cursorAtEmit (sortMentions batch) s file e he

theorem C4_witness :
    (Emit.mk ⟨7, []⟩ (JVal.int 7) (some [("since_id", JVal.int 7)])).cursorAtEmit
      = JVal.int (Emit.mk ⟨7, []⟩ (JVal.int 7)
          (some [("since_id", JVal.int 7)])).m.id :=
  C4_cursor_eq_emitted_id ⟨JVal.null, [], true⟩ (some []) [⟨7, []⟩] _ (by decide)

/-- C8 (counterexample): the claim says every save preserves all non-`since_id`
fields for every construction, including with an explicit starting cursor
override.  Constructed with override `since_id=5`, the instance never reads
the file, its in-memory record is empty, and the first save overwrites the
file with a record holding only `since_id` — the pre-existing `other` field
is destroyed. -/
theorem C8_counterexample :
    mentionsInit (JVal.int 5) true (some [("other", JVal.str [])])
        = Except.ok ⟨JVal.int 5, [], true⟩
    ∧ (maybeUpdateStatusFile ⟨JVal.int 5, [], true⟩
        (some [("other", JVal.str [])])).2 = some [("since_id", JVal.int 5)]
    ∧ getKey [("since_id", JVal.int 5)] "other" = none
    ∧ getKey [("other", JVal.str [])] "other" = some (JVal.str []) :=
  ⟨rfl, rfl, rfl, rfl⟩

/-- C8 (amended): when the store was constructed without an explicit cursor
override (so `__init__` loaded the record from the file), every save — after
any cursor advance, and under repeated saves — writes a record that preserves
every field other than `since_id` unchanged.  With an override the record is
never read and the first save overwrites it (see the counterexample). -/
theorem C8_save_preserves (obj : JObj) (s : MentionsState) (v : JVal)
    (key : String)
    (hinit : mentionsInit JVal.null true (some obj) = Except.ok s)
    (hk : key ≠ "since_id") :
    (maybeUpdateStatusFile ⟨v, s.status, s.hasFile⟩ (some obj)).2
        = some (setKey obj "since_id" v)
    ∧ getKey (setKey obj "since_id" v) key = getKey obj key
    ∧ ∀ v2, getKey (setKey (setKey obj "since_id" v) "since_id" v2) key
        = getKey obj key := by
  have hs : s = ⟨(getKey obj "since_id").getD JVal.null, obj, true⟩ := by
    simp only [mentionsInit, and_self, if_pos, Except.ok.injEq] at hinit
    exact hinit.symm
  subst hs
  refine ⟨by simp [maybeUpdateStatusFile], getKey_setKey_ne obj _ key v hk, ?_⟩
  intro v2
  rw [getKey_setKey_ne _ _ _ _ hk, getKey_setKey_ne _ _ _ _ hk]

theorem C8_witness :
    (maybeUpdateStatusFile ⟨JVal.int 9, [("other", JVal.int 1)], true⟩
        (some [("other", JVal.int 1)])).2
      = some (setKey [("other", JVal.int 1)] "since_id" (JVal.int 9))
    ∧ getKey (setKey [("other", JVal.int 1)] "since_id" (JVal.int 9)) "other"
      = getKey [("other", JVal.int 1)] "other"
    ∧ ∀ v2, getKey (setKey (setKey [("other", JVal.int 1)] "since_id"
          (JVal.int 9)) "since_id" v2) "other"
      = getKey [("other", JVal.int 1)] "other" :=
  C8_save_preserves [("other", JVal.int 1)]
    ⟨JVal.null, [("other", JVal.int 1)], true⟩ (JVal.int 9) "other" rfl
    (by decide)

/-- C9 (counterexample): the claim says the cursor loads as unset when no
prior persisted state exists.  With no status file on disk, `__init__`
instead propagates the missing-file error (`open` raises, nothing catches
it), so construction fails rather than starting from "process everything". -/
theorem C9_counterexample :
    mentionsInit JVal.null true none = Except.error ()
    ∧ ¬ ∃ s, mentionsInit JVal.null true none = Except.ok s := by
  refine ⟨rfl, ?_⟩
  rintro ⟨s, hs⟩
  rw [show mentionsInit JVal.null true none = Except.error () from rfl] at hs
  exact Except.noConfusion hs

/-- C9 (amended): when the persisted record exists but lacks the `since_id`
field, loading returns an unset cursor (the `KeyError` is caught) and
processing starts from "everything available"; when no persisted file exists
at all, construction raises instead of returning unset. -/
theorem C9_load_unset (obj : JObj) (h : getKey obj "since_id" = none) :
    mentionsInit JVal.null true (some obj) = Except.ok ⟨JVal.null, obj, true⟩
    ∧ mentionsInit JVal.null true none = Except.error () := by
  refine ⟨?_, rfl⟩
  simp [mentionsInit, h]

theorem C9_witness :
    mentionsInit JVal.null true (some [("foo", JVal.int 3)])
        = Except.ok ⟨JVal.null, [("foo", JVal.int 3)], true⟩
    ∧ mentionsInit JVal.null true none = Except.error () :=
  C9_load_unset [("foo", JVal.int 3)] (by decide)

/-- C10: every call to `Mentions.getNewMentions` raises — the attribute
lookup `self.rawGetMentions` fails on every input because no such attribute
exists on the class — so it never updates `since_id` or the status file. -/
theorem C10_getNewMentions_raises (fetched : List Mention) (s : MentionsState)
    (file : Option JObj) :
    getNewMentions fetched s file = Except.error PyError.attributeError := rfl

/-- A media entry of a tweet: its `type` and its `ext_alt_text` attribute
(`none` models Python `None`; `some []` an empty alt-text string). -/
structure MediaItem where
  type : String
  ext_alt_text : Option (List Char)
deriving DecidableEq

/-- src line 171: the media entries whose type is in
`{animated_gif, photo}`. -/
def mediaImages (ms : List MediaItem) : List MediaItem :=
  ms.filter fun x => x.type = "animated_gif" || x.type = "photo"

/-- Python `x or 'Missing alt text'` (src line 177): both `None` and the
empty string are falsy and replaced by the placeholder. -/
def altOrPlaceholder : Option (List Char) → List Char
  | none => "Missing alt text".toList
  | some t => if t = [] then "Missing alt text".toList else t

/-- `createAnnotations` (src lines 164-179).  The argument is `tweet.media`;
`none` models a media attribute that is Python `None` (iterating it raises
`TypeError`, which is caught and yields the empty list).  The sentinel
branch fires only when every qualifying entry's alt text `is None`; an
empty-string alt text does not count as absent there. -/
def createAnnotations (media : Option (List MediaItem)) : List (List Char) :=
  match media with
  | none => []
  | some ms =>
    let imgs := mediaImages ms
    if imgs.length = 0 then []
    else
      let alt_text_list := imgs.map fun img => img.ext_alt_text
      if alt_text_list.all Option.isNone then ["No alt text :\x27(".toList]
      else alt_text_list.map altOrPlaceholder

example : createAnnotations (some [⟨"photo", none⟩, ⟨"photo", none⟩])
    = ["No alt text :\x27(".toList] := by decide

example : createAnnotations (some [⟨"video", some "x".toList⟩]) = [] := by decide

/-- C5 (counterexample): a tweet with two photos whose alt-text fields are
both present but empty.  Under the claim's reading of "lacks" (absent or
empty) all qualifying media lack alt text, so a single sentinel entry should
be returned; the code instead returns one placeholder entry per image,
because its sentinel test checks `is None` only. -/
theorem C5_counterexample :
    createAnnotations (some [⟨"photo", some []⟩, ⟨"photo", some []⟩])
        = ["Missing alt text".toList, "Missing alt text".toList]
    ∧ createAnnotations (some [⟨"photo", some []⟩, ⟨"photo", some []⟩])
        ≠ ["No alt text :\x27(".toList] := by
  refine ⟨rfl, ?_⟩
  decide

/-- C5 (amended): for a tweet with at least one qualifying media entry, the
single-element sentinel list is returned exactly when every qualifying
entry's alt-text field is absent (`None`); otherwise one entry per
qualifying media item is returned, the placeholder substituted for each
entry whose alt text is absent or empty.  An all-empty-string tweet thus
gets per-image placeholders, not the sentinel. -/
theorem C5_sentinel (ms : List MediaItem) (hq : mediaImages ms ≠ []) :
    ((mediaImages ms).all (fun x => x.ext_alt_text.isNone) = true →
      createAnnotations (some ms) = ["No alt text :\x27(".toList])
    ∧ ((mediaImages ms).all (fun x => x.ext_alt_text.isNone) = false →
      createAnnotations (some ms)
        = (mediaImages ms).map fun x => altOrPlaceholder x.ext_alt_text) := by
  have hlen : ¬ (mediaImages ms).length = 0 := by
    simpa [List.length_eq_zero] using hq
  have hmapall : ((mediaImages ms).map fun img => img.ext_alt_text).all
      Option.isNone = (mediaImages ms).all fun x => x.ext_alt_text.isNone := by
    induction mediaImages ms with
    | nil => rfl
    | cons x xs ih => simp [ih]
  constructor
  · intro hall
    simp only [createAnnotations, if_neg hlen]
    rw [if_pos]
    rw [hmapall]
    exact hall
  · intro hnall
    simp only [createAnnotations, if_neg hlen]
    rw [if_neg, List.map_map]
    · rfl
    · rw [hmapall, hnall]
      exact Bool.false_ne_true

theorem C5_witness :
    createAnnotations (some [⟨"photo", some "a cat".toList⟩, ⟨"photo", none⟩])
      = (mediaImages [⟨"photo", some "a cat".toList⟩, ⟨"photo", none⟩]).map
          fun x => altOrPlaceholder x.ext_alt_text :=
  (C5_sentinel [⟨"photo", some "a cat".toList⟩, ⟨"photo", none⟩]
    (by decide)).2 (by decide)

/-- A twitter user, as read by `postReply`/`annotateTweet`. -/
structure TUser where
  id : Int
  screen_name : List Char
deriving DecidableEq

/-- A tweet (status), as read by `postReply`/`annotateTweet`: its id, its
author, and the users it mentions.  The statuses returned by `PostUpdate`
have the same shape. -/
structure Tweet where
  id : Int
  user : TUser
  user_mentions : List TUser
deriving DecidableEq

/-- The arguments `postReply` passes to `twitterApi.PostUpdate`
(src lines 215-219). -/
structure PostCall where
  status : List Char
  in_reply_to_status_id : Int
  exclude_reply_user_ids : List Int
deriving DecidableEq

/-- src line 212: the ids of the users mentioned in the tweet being replied
to, minus the target author and the bot identity (the module-global `self`,
which when the program runs equals the `self_user` argument). -/
def excludeList (respondToTweet : Tweet) (user selfUser : TUser) : List Int :=
  (respondToTweet.user_mentions.filter
    fun x => ¬ (x.id = user.id ∨ x.id = selfUser.id)).map TUser.id

/-- `postReply` (src lines 206-219): format the status with an explicit
`@handle` prefix naming `user`, target `respondToTweet`, and exclude
`excludeList` from reply notification.  The `first` parameter exists in the
source signature but is never read by the body; it is kept here, equally
unused.  The result is the call handed to `PostUpdate`. -/
def postReply (respondToTweet : Tweet) (text : List Char)
    (user selfUser : TUser) (first : Bool) : PostCall :=
  ⟨'@' :: (user.screen_name ++ ' ' :: text), respondToTweet.id,
    excludeList respondToTweet user selfUser⟩

/-- `'{0} [{1}/{2}]'.format(status.strip(), idx, total)` (src line 238). -/
def numberedMsg (status : List Char) (idx total : Nat) : List Char :=
  pyStrip status ++ (" [".toList ++ (toString idx).toList ++ "/".toList
    ++ (toString total).toList ++ "]".toList)

/-- The multi-chunk posting loop of `annotateTweet` (src lines 236-240),
over `zip(statuses, range(1, len+1))`.  `postResult k` is the tweet the
external `PostUpdate` returns for the k-th post of the chain (0-based);
the loop rebinds `respondToTweet` to that returned tweet, so each
subsequent reply targets the previous post.  `first` mirrors the
`first_reply` flag. -/
def threadLoop (postResult : Nat → Tweet) (user selfUser : TUser)
    (total : Nat) : Nat → Bool → Tweet → List (List Char × Nat) → List PostCall
  | _, _, _, [] => []
  | k, first, target, (status, idx) :: rest =>
    postReply target (numberedMsg status idx total) user selfUser first
      :: threadLoop postResult user selfUser total (k + 1) false
          (postResult k) rest

/-- The reply-threading part of `annotateTweet` (src lines 231-240): exactly
one chunk is posted as a single plain reply (no numbering); otherwise each
chunk is posted numbered and chained. -/
def threadStatuses (postResult : Nat → Tweet) (respondToTweet : Tweet)
    (user selfUser : TUser) (statuses : List (List Char)) : List PostCall :=
  if statuses.length = 1 then
    [postReply respondToTweet (statuses.headD []) user selfUser true]
  else
    threadLoop postResult user selfUser statuses.length 0 true respondToTweet
      (statuses.zip (List.range' 1 statuses.length))

/-- `annotateTweet` (src lines 221-240): extract annotations from the tweet
to annotate; post nothing when there are none; otherwise chunk at 250 and
thread the replies, addressed to `respondToTweet.user`. -/
def annotateTweet (postResult : Nat → Tweet) (respondToTweet : Tweet)
    (toAnnotateMedia : Option (List MediaItem)) (selfUser : TUser) :
    List PostCall :=
  let user := respondToTweet.user
  let anns := createAnnotations toAnnotateMedia
  if anns.length = 0 then []
  else threadStatuses postResult respondToTweet user selfUser
    (annotationsToStatuses anns 250)

theorem zip_range'_getElem (s : Nat) :
    ∀ (l : List (List Char)) (i : Nat) (st : List Char), l[i]? = some st →
      (l.zip (List.range' s l.length))[i]? = some (st, s + i) := by
  intro l
  induction l generalizing s with
  | nil => intro i st h; simp at h
  | cons x xs ih =>
    intro i st h
    cases i with
    | zero =>
      simp at h
      simp [List.range', h]
    | succ i =>
      simp at h
      have := ih (s + 1) i st h
      simp only [List.length_cons, List.range', List.zip_cons_cons,
        List.getElem?_cons_succ]
      rw [this]
      congr 2
      omega

/-- Shape of the calls made by the multi-reply loop: the i-th call posts the
i-th message numbered `i+1`, targeting the original tweet for `i = 0` and
the tweet returned by the previous post for `i > 0`; only the first call
carries the `first_reply` flag. -/
theorem threadLoop_spec (postResult : Nat → Tweet) (user selfUser : TUser)
    (total : Nat) :
    ∀ (pairs : List (List Char × Nat)) (k : Nat) (first : Bool) (target : Tweet),
      (threadLoop postResult user selfUser total k first target pairs).length
          = pairs.length
      ∧ ∀ i st idx, pairs[i]? = some (st, idx) →
          (threadLoop postResult user selfUser total k first target pairs)[i]?
            = some (postReply
                (if i = 0 then target else postResult (k + i - 1))
                (numberedMsg st idx total) user selfUser
                (if i = 0 then first else false)) := by
  intro pairs
  induction pairs with
  | nil =>
    intro k first target
    refine ⟨rfl, ?_⟩
    intro i st idx h
    simp at h
  | cons p rest ih =>
    intro k first target
    obtain ⟨st0, idx0⟩ := p
    constructor
    · simp only [threadLoop, List.length_cons]
      rw [(ih (k + 1) false (postResult k)).1]
    · intro i st idx h
      cases i with
      | zero =>
        simp at h
        simp [threadLoop, h.1, h.2]
      | succ i =>
        simp only [List.getElem?_cons_succ] at h
        simp only [threadLoop, List.getElem?_cons_succ]
        rw [(ih (k + 1) false (postResult k)).2 i st idx h]
        congr 1
        cases i with
        | zero => simp
        | succ i2 =>
          simp only [Nat.succ_ne_zero, if_neg, if_false]
          congr 2
          omega

/-- C6: for every chunk list, a single chunk is posted as one standalone
reply with no numbering suffix, targeting the original tweet; `N > 1` chunks
yield `N` replies in order whose i-th text carries the `[i/N]` suffix
(1-based) produced by `numberedMsg`, where the first reply targets the
original tweet and every later reply targets the tweet identifier returned
by the previous post. -/
theorem C6_threading (postResult : Nat → Tweet) (t : Tweet)
    (user selfUser : TUser) (statuses : List (List Char)) :
    (statuses.length = 1 →
      threadStatuses postResult t user selfUser statuses
        = [⟨'@' :: (user.screen_name ++ ' ' :: statuses.headD []), t.id,
            excludeList t user selfUser⟩])
    ∧ (1 < statuses.length →
        (threadStatuses postResult t user selfUser statuses).length
            = statuses.length
        ∧ ∀ i st, statuses[i]? = some st →
            (threadStatuses postResult t user selfUser statuses)[i]?
              = some (postReply (if i = 0 then t else postResult (i - 1))
                  (numberedMsg st (1 + i) statuses.length) user selfUser
                  (if i = 0 then true else false))) := by
  constructor
  · intro h1
    rw [threadStatuses, if_pos h1]
    rfl
  · intro h2
    have hne1 : ¬ statuses.length = 1 := by omega
    rw [threadStatuses, if_neg hne1]
    constructor
    · rw [(threadLoop_spec postResult user selfUser statuses.length _ 0 true t).1]
      simp [List.length_zip]
    · intro i st h
      have hz := zip_range'_getElem 1 statuses i st h
      have hl := (threadLoop_spec postResult user selfUser statuses.length
        (statuses.zip (List.range' 1 statuses.length)) 0 true t).2 i st (1 + i) hz
      rw [hl]
      rw [Nat.zero_add]

def sampleAuthor : TUser := ⟨2, "alice".toList⟩

def sampleBot : TUser := ⟨7, []⟩

/-- A triggering mention: authored by `sampleAuthor`, mentioning a third
user (id 42), the author, and the bot. -/
def sampleMention : Tweet := ⟨1, sampleAuthor, [⟨42, []⟩, sampleAuthor, sampleBot]⟩

/-- Sample results of `PostUpdate`: the k-th post returns a tweet with id
`100 + k` that mentions nobody. -/
def samplePostResult : Nat → Tweet := fun k => ⟨(100 : Int) + k, sampleBot, []⟩

theorem C6_witness :
    (threadStatuses samplePostResult sampleMention sampleAuthor sampleBot
        ["aa".toList, "bb".toList, "cc".toList]).length
      = ["aa".toList, "bb".toList, "cc".toList].length
    ∧ (threadStatuses samplePostResult sampleMention sampleAuthor sampleBot
        ["aa".toList, "bb".toList, "cc".toList])[1]?
      = some (postReply (samplePostResult 0)
          (numberedMsg "bb".toList (1 + 1)
            (["aa".toList, "bb".toList, "cc".toList]).length)
          sampleAuthor sampleBot false) :=
  ⟨((C6_threading samplePostResult sampleMention sampleAuthor sampleBot
      ["aa".toList, "bb".toList, "cc".toList]).2 (by decide)).1,
   ((C6_threading samplePostResult sampleMention sampleAuthor sampleBot
      ["aa".toList, "bb".toList, "cc".toList]).2 (by decide)).2 1 "bb".toList
      (by decide)⟩

theorem not_mem_excludeList (src : Tweet) (user selfUser : TUser) :
    user.id ∉ excludeList src user selfUser
    ∧ selfUser.id ∉ excludeList src user selfUser := by
  constructor
  · intro hmem
    rcases List.mem_map.mp hmem with ⟨x, hx, hxid⟩
    have hf := List.of_mem_filter hx
    simp at hf
    exact hf.1 hxid
  · intro hmem
    rcases List.mem_map.mp hmem with ⟨x, hx, hxid⟩
    have hf := List.of_mem_filter hx
    simp at hf
    exact hf.2 hxid

/-- Every call made by the multi-reply loop is a `postReply` addressed to
`user`, whose source tweet (the one supplying target id and exclusion list)
is either the loop's initial target or some tweet returned by `PostUpdate`. -/
theorem threadLoop_call_shape (postResult : Nat → Tweet) (user selfUser : TUser)
    (total : Nat) :
    ∀ (pairs : List (List Char × Nat)) (k : Nat) (first : Bool) (target : Tweet)
      (call : PostCall),
      call ∈ threadLoop postResult user selfUser total k first target pairs →
      ∃ msg src, call = postReply src msg user selfUser true
        ∧ (src = target ∨ ∃ k2, src = postResult k2) := by
  intro pairs
  induction pairs with
  | nil => intro k first target call h; simp [threadLoop] at h
  | cons p rest ih =>
    intro k first target call h
    obtain ⟨st, idx⟩ := p
    simp only [threadLoop] at h
    rcases List.mem_cons.mp h with rfl | h2
    · exact ⟨numberedMsg st idx total, target, rfl, Or.inl rfl⟩
    · rcases ih (k + 1) false (postResult k) call h2 with ⟨msg, src, hc, hsrc⟩
      refine ⟨msg, src, hc, Or.inr ?_⟩
      rcases hsrc with rfl | ⟨k2, hk2⟩
      · exact ⟨k, rfl⟩
      · exact ⟨k2, hk2⟩

/-- C7 (counterexample): the claim says every reply of a chain excludes
exactly the extra users mentioned in the triggering mention.  In the chain
below the triggering mention mentions user 42 (beyond author and bot), so
the claimed exclusion list is `[42]`; but the second reply's exclusion list
is computed from the first posted reply (to which `respondToTweet` has been
rebound), which mentions nobody, so it is `[]`. -/
theorem C7_counterexample :
    ((threadStatuses samplePostResult sampleMention sampleAuthor sampleBot
        ["aa".toList, "bb".toList])[1]?).map PostCall.exclude_reply_user_ids
      = some []
    ∧ excludeList sampleMention sampleAuthor sampleBot = [42]
    ∧ some ([] : List Int) ≠ some [42] := by decide

/-- C7 (amended): every reply of a chain is addressed with an explicit
`@handle` prefix naming the resolved mention's author, and its exclusion
list never contains the target author or the bot; but the exclusion list is
computed from the tweet that reply directly targets — the triggering mention
for the first reply, the previously returned post for later ones — not
always from the triggering mention. -/
theorem C7_reply_addressing (postResult : Nat → Tweet) (t : Tweet)
    (user selfUser : TUser) (statuses : List (List Char)) :
    ∀ call ∈ threadStatuses postResult t user selfUser statuses,
      (∃ rest, call.status = '@' :: (user.screen_name ++ ' ' :: rest))
      ∧ user.id ∉ call.exclude_reply_user_ids
      ∧ selfUser.id ∉ call.exclude_reply_user_ids
      ∧ ∃ src : Tweet, call.in_reply_to_status_id = src.id
          ∧ call.exclude_reply_user_ids = excludeList src user selfUser
          ∧ (src = t ∨ ∃ k, src = postResult k) := by
  intro call hcall
  have hshape : ∃ msg src, call = postReply src msg user selfUser true
      ∧ (src = t ∨ ∃ k, src = postResult k) := by
    by_cases h1 : statuses.length = 1
    · rw [threadStatuses, if_pos h1] at hcall
      rw [List.mem_singleton] at hcall
      exact ⟨statuses.headD [], t, hcall, Or.inl rfl⟩
    · rw [threadStatuses, if_neg h1] at hcall
      exact threadLoop_call_shape postResult user selfUser statuses.length
        _ 0 true t call hcall
  rcases hshape with ⟨msg, src, rfl, hsrc⟩
  exact ⟨⟨msg, rfl⟩, (not_mem_excludeList src user selfUser).1,
    (not_mem_excludeList src user selfUser).2, src, rfl, rfl, hsrc⟩

theorem C7_witness :
    (∃ rest, (postReply sampleMention "hi".toList sampleAuthor sampleBot
        true).status = '@' :: (sampleAuthor.screen_name ++ ' ' :: rest))
    ∧ sampleAuthor.id ∉ (postReply sampleMention "hi".toList sampleAuthor
        sampleBot true).exclude_reply_user_ids
    ∧ sampleBot.id ∉ (postReply sampleMention "hi".toList sampleAuthor
        sampleBot true).exclude_reply_user_ids
    ∧ ∃ src : Tweet, (postReply sampleMention "hi".toList sampleAuthor
          sampleBot true).in_reply_to_status_id = src.id
        ∧ (postReply sampleMention "hi".toList sampleAuthor
            sampleBot true).exclude_reply_user_ids
          = excludeList src sampleAuthor sampleBot
        ∧ (src = sampleMention ∨ ∃ k, src = samplePostResult k) :=
  C7_reply_addressing samplePostResult sampleMention sampleAuthor sampleBot
    ["hi".toList]
    (postReply sampleMention "hi".toList sampleAuthor sampleBot true)
    (by decide)
